import Mathlib

/-!
Verification of the geometry core of `ward_lookup.py` (Mangalore ward lookup).

Planar coordinates are modelled exactly as rationals; the Euclidean distance
(`math.hypot`) and the Web-Mercator projection (`math.log`, `math.tan`) are
modelled over the reals.  Python's `float("inf")` initial value of the
running minimum is modelled by `⊤ : EReal`.
-/

namespace WardLookup

/-- A planar point, as stored in the dataset (`[x, y]` pairs). -/
abbrev Pt : Type := ℚ × ℚ

/-- The on-edge tolerance constant `1e-9` from `point_in_ring`. -/
def eps : ℚ := 1 / 1000000000

/-- The edge list walked by every `for i in range(n): ring[i], ring[(i+1) % n]`
loop of the source (`signed_area`, `point_in_ring`, `distance_to_polygon`). -/
def edges (ring : List Pt) : List (Pt × Pt) :=
  (List.range ring.length).map
    (fun i => (ring.getD i (0, 0), ring.getD ((i + 1) % ring.length) (0, 0)))

/-- One cross term `x1 * y2 - x2 * y1` of the shoelace sum. -/
def cross (p q : Pt) : ℚ := p.1 * q.2 - q.1 * p.2

/-- `signed_area` (ward_lookup.py lines 30-37): half the shoelace sum over
all edges, wrap-around included. -/
def signed_area (ring : List Pt) : ℚ :=
  (((edges ring).map (fun e => cross e.1 e.2)).sum) / 2

/-- The on-edge test of `point_in_ring` (lines 48-51): the query point lies in
the edge's bounding box and the cross deviation is within tolerance. -/
def onEdgeB (x y : ℚ) (e : Pt × Pt) : Bool :=
  decide (min e.1.1 e.2.1 ≤ x ∧ x ≤ max e.1.1 e.2.1 ∧
          min e.1.2 e.2.2 ≤ y ∧ y ≤ max e.1.2 e.2.2 ∧
          |(x - e.1.1) * (e.2.2 - e.1.2) - (y - e.1.2) * (e.2.1 - e.1.1)| ≤
            eps * max 1 (|e.2.1 - e.1.1| + |e.2.2 - e.1.2|))

/-- The straddle test `(y1 > y) != (y2 > y)` of line 54. -/
def straddleB (y : ℚ) (e : Pt × Pt) : Bool :=
  decide (y < e.1.2) != decide (y < e.2.2)

/-- The x-intersection `(x2 - x1) * (y - y1) / (y2 - y1 + 0.0) + x1` of line 55. -/
def xinters (y : ℚ) (e : Pt × Pt) : ℚ :=
  (e.2.1 - e.1.1) * (y - e.1.2) / (e.2.2 - e.1.2 + 0) + e.1.1

/-- An edge on which the loop of `point_in_ring` returns `True` immediately:
the on-edge check fires, or the ray hits the edge exactly at the query x. -/
def earlyB (x y : ℚ) (e : Pt × Pt) : Bool :=
  onEdgeB x y e || (straddleB y e && decide (xinters y e = x))

/-- An edge on which the loop of `point_in_ring` toggles the inside flag:
no early return, the edge straddles the ray, and the hit is right of x. -/
def toggleB (x y : ℚ) (e : Pt × Pt) : Bool :=
  !earlyB x y e && straddleB y e && decide (x < xinters y e)

/-- The edge loop of `point_in_ring` (lines 43-59): early `return True` on the
on-edge check and on an exact ray hit, otherwise parity toggling. -/
def point_in_ring_loop (x y : ℚ) : List (Pt × Pt) → Bool → Bool
  | [], inside => inside
  | e :: es, inside =>
    if onEdgeB x y e then true
    else if straddleB y e then
      (if xinters y e = x then true
       else if x < xinters y e then point_in_ring_loop x y es (!inside)
       else point_in_ring_loop x y es inside)
    else point_in_ring_loop x y es inside

/-- `point_in_ring` (lines 39-60): ray casting with explicit on-edge check. -/
def point_in_ring (x y : ℚ) (ring : List Pt) : Bool :=
  point_in_ring_loop x y (edges ring) false

/-- The shell list of `point_in_polygon` line 65: rings with `signed_area ≤ 0`,
in order. -/
def shell_rings (rings : List (List Pt)) : List (List Pt) :=
  rings.filter (fun r => !decide (0 < signed_area r))

/-- The hole list of `point_in_polygon` line 65: rings with `signed_area > 0`,
in order. -/
def hole_rings (rings : List (List Pt)) : List (List Pt) :=
  rings.filter (fun r => decide (0 < signed_area r))

/-- The shells actually tested, after the `if not shells and rings` fallback of
lines 67-69. -/
def eff_shells (rings : List (List Pt)) : List (List Pt) :=
  if shell_rings rings = [] ∧ rings ≠ [] then rings else shell_rings rings

/-- The holes actually tested, after the fallback of lines 67-69. -/
def eff_holes (rings : List (List Pt)) : List (List Pt) :=
  if shell_rings rings = [] ∧ rings ≠ [] then [] else hole_rings rings

/-- `point_in_polygon` (lines 62-76): find the first shell containing the
point; if found, the point is inside exactly when no hole contains it. -/
def point_in_polygon (x y : ℚ) (rings : List (List Pt)) : Bool :=
  match (eff_shells rings).find? (fun shell => point_in_ring x y shell) with
  | some _ => (eff_holes rings).all (fun hole => !point_in_ring x y hole)
  | none => false

/-- The squared length `dx*dx + dy*dy` computed by `dist_point_segment`
(lines 78-86) before the final `math.hypot`. -/
def dist_point_segment_sq (px py x1 y1 x2 y2 : ℚ) : ℚ :=
  let vx := x2 - x1
  let vy := y2 - y1
  let wx := px - x1
  let wy := py - y1
  let denom := vx * vx + vy * vy
  let t := if denom = 0 then 0 else max 0 (min 1 ((wx * vx + wy * vy) / denom))
  let cx := x1 + t * vx
  let cy := y1 + t * vy
  let dx := px - cx
  let dy := py - cy
  dx * dx + dy * dy

/-- The clamped projection parameter `t` of `dist_point_segment` (line 83),
factored out for reasoning; `dist_point_segment_sq` reduces to the squared
distance to the point at this parameter. -/
def dps_t (px py x1 y1 x2 y2 : ℚ) : ℚ :=
  let vx := x2 - x1
  let vy := y2 - y1
  let denom := vx * vx + vy * vy
  if denom = 0 then 0 else max 0 (min 1 (((px - x1) * vx + (py - y1) * vy) / denom))

/-- `dist_point_segment` (lines 78-86): `math.hypot(dx, dy)`, i.e. the square
root of the squared distance to the clamped projection. -/
noncomputable def dist_point_segment (px py x1 y1 x2 y2 : ℚ) : ℝ :=
  Real.sqrt ((dist_point_segment_sq px py x1 y1 x2 y2 : ℚ) : ℝ)

/-- `distance_to_polygon` (lines 88-96): running minimum, starting from
`float("inf")`, of the distance to every edge of every ring. -/
noncomputable def distance_to_polygon (x y : ℚ) (rings : List (List Pt)) : EReal :=
  rings.foldl
    (fun dmin ring =>
      (edges ring).foldl
        (fun dmin e =>
          min dmin ((dist_point_segment x y e.1.1 e.1.2 e.2.1 e.2.2 : ℝ) : EReal))
        dmin)
    ⊤

/-- The point lies exactly on the closed segment from `a` to `b`. -/
def OnSegment (p a b : Pt) : Prop :=
  ∃ t : ℚ, 0 ≤ t ∧ t ≤ 1 ∧ p.1 = a.1 + t * (b.1 - a.1) ∧ p.2 = a.2 + t * (b.2 - a.2)

/-- A ward record of the slim dataset: `bbox` bounds, `rings`, and an
identifying ward number (other metadata is opaque to the geometry core). -/
structure Ward where
  minx : ℚ
  miny : ℚ
  maxx : ℚ
  maxy : ℚ
  rings : List (List Pt)
  ward_no : ℕ
deriving DecidableEq

/-- The bbox pre-filter of `lookup` (lines 110-115): keep, in order, wards
whose bounding box contains the point, inclusively. -/
def bboxFilter (x y : ℚ) (wards : List Ward) : List Ward :=
  wards.filter (fun w => decide (w.minx ≤ x ∧ x ≤ w.maxx ∧ w.miny ≤ y ∧ y ≤ w.maxy))

/-- The per-ward distance `distance_to_polygon(x, y, w["rings"])` of line 124. -/
noncomputable def ward_distance (x y : ℚ) (w : Ward) : EReal :=
  distance_to_polygon x y w.rings

/-- One step of the nearest-ward scan (lines 122-126): replace the best
candidate exactly when the new distance is strictly smaller. -/
noncomputable def near_step (x y : ℚ) (acc : Option Ward × EReal) (w : Ward) :
    Option Ward × EReal :=
  if ward_distance x y w < acc.2 then (some w, ward_distance x y w) else acc

/-- The nearest-ward scan of `lookup` (lines 121-126), over the entire ward
collection, starting from `best, bestd = None, float("inf")`. -/
noncomputable def nearestScan (x y : ℚ) (wards : List Ward) : Option Ward × EReal :=
  wards.foldl (near_step x y) (none, ⊤)

/-- Python's `round` to an integer: round half to even. -/
noncomputable def roundHalfEven (x : ℝ) : ℤ :=
  if Int.fract x < 1 / 2 then ⌊x⌋
  else if 1 / 2 < Int.fract x then ⌈x⌉
  else if Even ⌊x⌋ then ⌊x⌋ else ⌊x⌋ + 1

/-- Python's `round(x, 2)` of line 127: round to 2 decimal places, half to
even. -/
noncomputable def pyRound2 (x : ℝ) : ℝ :=
  ((roundHalfEven (x * 100) : ℤ) : ℝ) / 100

/-- The outcome of a lookup: the dict `{"match": "inside", ...}` or
`{"match": "nearest", ..., "distance_m": ...}` of lines 119 and 127. -/
inductive MatchResult where
  | inside (ward : Ward)
  | nearest (ward : Ward) (distance_m : ℝ)

/-- `lookup` (lines 107-129) after the projection step: bbox filter, first
inside candidate, then the optional nearest fallback.  Returning `none`
models Python's `None`. -/
noncomputable def lookup (wards : List Ward) (x y : ℚ) (nearest : Bool) :
    Option MatchResult :=
  let cands := bboxFilter x y wards
  match cands.find? (fun w => point_in_polygon x y w.rings) with
  | some w => some (MatchResult.inside w)
  | none =>
    if nearest then
      match nearestScan x y wards with
      | (some w, bestd) => some (MatchResult.nearest w (pyRound2 bestd.toReal))
      | (none, _) => none
    else none

/-- `math.radians`: degrees to radians. -/
noncomputable def radians (deg : ℝ) : ℝ := deg * (Real.pi / 180)

/-- The latitude clamp of `lonlat_to_webmercator` line 24. -/
noncomputable def clamp_lat (lat : ℝ) : ℝ :=
  max (min lat 85.05112878) (-85.05112878)

/-- `lonlat_to_webmercator` (lines 23-28): clamp the latitude to the Mercator
limits, then apply the spherical Web-Mercator formulas with `R = 6378137.0`. -/
noncomputable def lonlat_to_webmercator (lon lat : ℝ) : ℝ × ℝ :=
  let lat' := clamp_lat lat
  let R : ℝ := 6378137.0
  (R * radians lon, R * Real.log (Real.tan (Real.pi / 4 + radians lat' / 2)))

/-- Division that reports a zero divisor instead of Lean's `x / 0 = 0`
convention; used to state that the source never divides by zero. -/
def checked_div (a b : ℚ) : Option ℚ :=
  if b = 0 then none else some (a / b)

/-- `dist_point_segment_sq` with its division routed through `checked_div`. -/
def dist_point_segment_sq_checked (px py x1 y1 x2 y2 : ℚ) : Option ℚ :=
  let vx := x2 - x1
  let vy := y2 - y1
  let wx := px - x1
  let wy := py - y1
  let denom := vx * vx + vy * vy
  let tO : Option ℚ :=
    if denom = 0 then some 0
    else (checked_div (wx * vx + wy * vy) denom).map (fun q => max 0 (min 1 q))
  tO.map (fun t =>
    let cx := x1 + t * vx
    let cy := y1 + t * vy
    let dx := px - cx
    let dy := py - cy
    dx * dx + dy * dy)

/-- The `point_in_ring` edge loop with its division routed through
`checked_div`. -/
def point_in_ring_loop_checked (x y : ℚ) :
    List (Pt × Pt) → Bool → Option Bool
  | [], inside => some inside
  | e :: es, inside =>
    if onEdgeB x y e then some true
    else if straddleB y e then
      match checked_div ((e.2.1 - e.1.1) * (y - e.1.2)) (e.2.2 - e.1.2 + 0) with
      | none => none
      | some q =>
        (if q + e.1.1 = x then some true
         else if x < q + e.1.1 then point_in_ring_loop_checked x y es (!inside)
         else point_in_ring_loop_checked x y es inside)
    else point_in_ring_loop_checked x y es inside

/-- `point_in_ring` with checked division. -/
def point_in_ring_checked (x y : ℚ) (ring : List Pt) : Option Bool :=
  point_in_ring_loop_checked x y (edges ring) false

/-- The shells of the claim's wording: classify by signed-area sign, and if
that yields zero shells treat all rings as shells. -/
def claim_shells (rings : List (List Pt)) : List (List Pt) :=
  if rings.filter (fun r => decide (signed_area r ≤ 0)) = [] then rings
  else rings.filter (fun r => decide (signed_area r ≤ 0))

/-- The holes of the claim's wording: positive signed area, discarded entirely
when the classification yields zero shells. -/
def claim_holes (rings : List (List Pt)) : List (List Pt) :=
  if rings.filter (fun r => decide (signed_area r ≤ 0)) = [] then []
  else rings.filter (fun r => decide (0 < signed_area r))

/-- The list of per-edge distances scanned by `distance_to_polygon`. -/
noncomputable def edge_dists (x y : ℚ) (rings : List (List Pt)) : List EReal :=
  (rings.map (fun ring =>
    (edges ring).map
      (fun e => ((dist_point_segment x y e.1.1 e.1.2 e.2.1 e.2.2 : ℝ) : EReal)))).flatten

/-- Scenario fixture: the unit-test square ring of the spec (CCW winding). -/
def sq_ccw : List Pt := [(0, 0), (10, 0), (10, 10), (0, 10)]

/-- Scenario fixture: the same square with clockwise winding (a shell). -/
def sq_cw : List Pt := [(0, 0), (0, 10), (10, 10), (10, 0)]

/-- Scenario fixture: a clockwise 20 by 20 shell. -/
def shell20 : List Pt := [(0, 0), (0, 20), (20, 20), (20, 0)]

/-- Scenario fixture: a counter-clockwise hole inside `shell20`. -/
def hole5 : List Pt := [(5, 5), (15, 5), (15, 15), (5, 15)]

/-- Scenario fixture: a ward over the clockwise square. -/
def ward_sq : Ward := ⟨0, 0, 10, 10, [sq_cw], 1⟩

/-- Scenario fixture: a second, identical ward with a different number. -/
def ward_sq2 : Ward := ⟨0, 0, 10, 10, [sq_cw], 2⟩

/-- The path part of the shoelace sum: cross terms over consecutive vertex
pairs, without the wrap-around edge. -/
def pathSum : List Pt → ℚ
  | [] => 0
  | [_] => 0
  | p :: q :: rest => cross p q + pathSum (q :: rest)

/-- Head of a vertex list, with the same default as `edges`. -/
def headP : List Pt → Pt
  | [] => (0, 0)
  | p :: _ => p

/-- Last element of a vertex list, with the same default as `edges`. -/
def lastP : List Pt → Pt
  | [] => (0, 0)
  | [p] => p
  | _ :: q :: rest => lastP (q :: rest)

/-! ### Generic helper lemmas -/

theorem convex_between (a b t : ℚ) (h0 : 0 ≤ t) (h1 : t ≤ 1) :
    min a b ≤ a + t * (b - a) ∧ a + t * (b - a) ≤ max a b := by
  rcases le_total a b with h | h
  · rw [min_eq_left h, max_eq_right h]
    constructor <;> nlinarith
  · rw [min_eq_right h, max_eq_left h]
    constructor <;> nlinarith

theorem foldl_min_le_init {α : Type} [LinearOrder α] :
    ∀ (l : List α) (c : α), l.foldl min c ≤ c := by
  intro l
  induction l with
  | nil => intro c; exact le_refl c
  | cons a t ih =>
    intro c
    calc (a :: t).foldl min c = t.foldl min (min c a) := rfl
    _ ≤ min c a := ih (min c a)
    _ ≤ c := min_le_left c a

theorem foldl_min_le_mem {α : Type} [LinearOrder α] :
    ∀ (l : List α) (c : α) (a : α), a ∈ l → l.foldl min c ≤ a := by
  intro l
  induction l with
  | nil => intro c a h; exact absurd h (List.not_mem_nil a)
  | cons b t ih =>
    intro c a h
    rcases List.mem_cons.1 h with h | h
    · subst h
      calc (a :: t).foldl min c = t.foldl min (min c a) := rfl
      _ ≤ min c a := foldl_min_le_init t (min c a)
      _ ≤ a := min_le_right c a
    · exact ih (min c b) a h

theorem foldl_min_mem {α : Type} [LinearOrder α] :
    ∀ (l : List α) (c : α), l.foldl min c = c ∨ l.foldl min c ∈ l := by
  intro l
  induction l with
  | nil => intro c; exact Or.inl rfl
  | cons a t ih =>
    intro c
    have : (a :: t).foldl min c = t.foldl min (min c a) := rfl
    rw [this]
    rcases ih (min c a) with h | h
    · rcases min_choice c a with hc | hc
      · exact Or.inl (h.trans hc)
      · exact Or.inr (List.mem_cons.2 (Or.inl (h.trans hc)))
    · exact Or.inr (List.mem_cons.2 (Or.inr h))

theorem le_foldl_min {α : Type} [LinearOrder α] :
    ∀ (l : List α) (c b : α), b ≤ c → (∀ a ∈ l, b ≤ a) → b ≤ l.foldl min c := by
  intro l
  induction l with
  | nil => intro c b hc _; exact hc
  | cons a t ih =>
    intro c b hc h
    have : (a :: t).foldl min c = t.foldl min (min c a) := rfl
    rw [this]
    exact ih (min c a) b (le_min hc (h a (List.mem_cons_self a t)))
      (fun x hx => h x (List.mem_cons.2 (Or.inr hx)))

theorem find?_eq_some_of_first {α : Type} (p : α → Bool) :
    ∀ (l : List α) (i : ℕ) (h : i < l.length),
      (∀ j (hj : j < l.length), j < i → p (l.get ⟨j, hj⟩) = false) →
      p (l.get ⟨i, h⟩) = true → l.find? p = some (l.get ⟨i, h⟩) := by
  intro l
  induction l with
  | nil => intro i h; exact absurd h (Nat.not_lt_zero i)
  | cons a t ih =>
    intro i h hprev hp
    cases i with
    | zero =>
      simp only [List.get] at hp ⊢
      rw [List.find?_cons_of_pos _ hp]
    | succ k =>
      have ha : p a = false := hprev 0 (Nat.succ_pos _) (Nat.succ_pos k)
      rw [List.find?_cons_of_neg _ (by simp [ha])]
      exact ih k (Nat.lt_of_succ_lt_succ h)
        (fun j hj hjk => hprev (j + 1) (Nat.succ_lt_succ hj) (Nat.succ_lt_succ hjk)) hp

theorem countP_split {α : Type} (p q : α → Bool) :
    ∀ l : List α,
      l.countP p = l.countP (fun a => p a && q a) + l.countP (fun a => p a && !q a) := by
  intro l
  induction l with
  | nil => rfl
  | cons a t ih =>
    simp only [List.countP_cons, ih]
    cases hp : p a <;> cases hq : q a <;> simp <;> omega

theorem sum_sq_nonneg (a b : ℚ) : 0 ≤ a * a + b * b := by nlinarith

/-! ### Lemmas about `edges` -/

theorem edges_length (ring : List Pt) : (edges ring).length = ring.length := by
  simp [edges]

theorem edges_eq_zip (ring : List Pt) : edges ring = ring.zip (ring.rotate 1) := by
  apply List.ext_getElem
  · simp [edges]
  · intro i h1 h2
    have hn : i < ring.length := by simpa [edges] using h1
    have hz : i < (ring.rotate 1).length := by simpa using hn
    have hmod : (i + 1) % ring.length < ring.length :=
      Nat.mod_lt _ (Nat.zero_lt_of_lt hn)
    simp only [edges, List.getElem_map, List.getElem_range, List.getElem_zip]
    rw [List.getD_eq_getElem ring (0, 0) hn, List.getD_eq_getElem ring (0, 0) hmod,
      List.getElem_rotate ring 1 i hz]

theorem mem_of_mem_edges {ring : List Pt} {e : Pt × Pt} (h : e ∈ edges ring) :
    e.1 ∈ ring ∧ e.2 ∈ ring := by
  rw [edges_eq_zip] at h
  rcases e with ⟨a, b⟩
  have := List.of_mem_zip h
  exact ⟨this.1, List.mem_rotate.1 this.2⟩

theorem edges_cons (p : Pt) (t : List Pt) :
    edges (p :: t) = (p :: t).zip (t ++ [p]) := by
  rw [edges_eq_zip, List.rotate_cons_succ, List.rotate_zero]

/-! ### Shoelace sum: structural form -/

theorem cross_self (p : Pt) : cross p p = 0 := by simp [cross]

theorem cross_antisymm (p q : Pt) : cross q p = -cross p q := by simp [cross]


theorem lastP_cons_cons (p q : Pt) (t : List Pt) :
    lastP (p :: q :: t) = lastP (q :: t) := rfl

theorem lastP_concat : ∀ (l : List Pt) (a : Pt), lastP (l ++ [a]) = a := by
  intro l
  induction l with
  | nil => intro a; rfl
  | cons p t ih =>
    intro a
    cases t with
    | nil => rfl
    | cons q r => simpa [lastP_cons_cons] using ih a

theorem pathSum_concat :
    ∀ (l : List Pt) (a : Pt), pathSum (l ++ [a]) = pathSum l + cross (lastP l) a := by
  intro l
  induction l with
  | nil => intro a; simp [pathSum, lastP, cross]
  | cons p t ih =>
    intro a
    cases t with
    | nil => simp [pathSum, lastP]
    | cons q r =>
      have h1 : pathSum ((p :: q :: r) ++ [a]) = cross p q + pathSum ((q :: r) ++ [a]) := rfl
      have h2 : pathSum (p :: q :: r) = cross p q + pathSum (q :: r) := rfl
      rw [h1, ih a, h2, lastP_cons_cons]
      ring

theorem zip_wrap_sum :
    ∀ (t : List Pt) (hd first : Pt),
      (((hd :: t).zip (t ++ [first])).map (fun pq => cross pq.1 pq.2)).sum =
        pathSum (hd :: t) + cross (lastP (hd :: t)) first := by
  intro t
  induction t with
  | nil => intro hd first; simp [pathSum, lastP]
  | cons q qs ih =>
    intro hd first
    have hz : (hd :: q :: qs).zip ((q :: qs) ++ [first]) =
        (hd, q) :: ((q :: qs).zip (qs ++ [first])) := rfl
    rw [hz, List.map_cons, List.sum_cons, ih q first, pathSum, lastP_cons_cons]
    ring

theorem shoelace_eq_path (ring : List Pt) :
    ((edges ring).map (fun e => cross e.1 e.2)).sum =
      pathSum ring + cross (lastP ring) (headP ring) := by
  cases ring with
  | nil => simp [edges, pathSum, lastP, headP, cross]
  | cons p t => rw [edges_cons, zip_wrap_sum, headP]

theorem signed_area_eq_path (ring : List Pt) :
    signed_area ring = (pathSum ring + cross (lastP ring) (headP ring)) / 2 := by
  rw [signed_area, shoelace_eq_path]

theorem lastP_reverse : ∀ l : List Pt, lastP l.reverse = headP l := by
  intro l
  cases l with
  | nil => rfl
  | cons q qs => rw [List.reverse_cons, lastP_concat, headP]

theorem headP_append_of_ne_nil (l l' : List Pt) (h : l ≠ []) :
    headP (l ++ l') = headP l := by
  cases l with
  | nil => exact absurd rfl h
  | cons q qs => rfl

theorem headP_reverse : ∀ l : List Pt, headP l.reverse = lastP l := by
  intro l
  induction l with
  | nil => rfl
  | cons q qs ih =>
    rw [List.reverse_cons]
    cases qs with
    | nil => rfl
    | cons r rs =>
      rw [headP_append_of_ne_nil _ _ (by simp), ih, lastP_cons_cons]

theorem pathSum_reverse : ∀ l : List Pt, pathSum l.reverse = -pathSum l := by
  intro l
  induction l with
  | nil => simp [pathSum]
  | cons p t ih =>
    cases t with
    | nil => simp [pathSum]
    | cons q qs =>
      rw [List.reverse_cons, pathSum_concat, ih, lastP_reverse]
      have h2 : pathSum (p :: q :: qs) = cross p q + pathSum (q :: qs) := rfl
      rw [h2, headP, cross_antisymm]
      ring

theorem signed_area_rotate_one :
    ∀ (p : Pt) (t : List Pt), signed_area (p :: t) = signed_area (t ++ [p]) := by
  intro p t
  cases t with
  | nil => rfl
  | cons q qs =>
    rw [signed_area_eq_path, signed_area_eq_path, pathSum_concat, lastP_concat]
    have h1 : pathSum (p :: q :: qs) = cross p q + pathSum (q :: qs) := rfl
    have h2 : headP ((q :: qs) ++ [p]) = q := rfl
    have h3 : headP (p :: q :: qs) = p := rfl
    have h4 : lastP (p :: q :: qs) = lastP (q :: qs) := rfl
    rw [h1, h2, h3, h4]
    ring

theorem signed_area_rotate : ∀ (k : ℕ) (l : List Pt),
    signed_area (l.rotate k) = signed_area l := by
  intro k
  induction k with
  | zero => intro l; rw [List.rotate_zero]
  | succ n ih =>
    intro l
    have h1 : l.rotate (n + 1) = (l.rotate 1).rotate n := by
      rw [List.rotate_rotate, Nat.add_comm]
    rw [h1, ih (l.rotate 1)]
    cases l with
    | nil => rfl
    | cons p t =>
      rw [List.rotate_cons_succ, List.rotate_zero, ← signed_area_rotate_one]

theorem signed_area_reverse (l : List Pt) :
    signed_area l.reverse = -signed_area l := by
  rw [signed_area_eq_path, signed_area_eq_path, pathSum_reverse, lastP_reverse,
    headP_reverse, cross_antisymm]
  ring

/-! ### Characterization of the ray-cast loop -/

theorem point_in_ring_loop_eq (x y : ℚ) :
    ∀ (es : List (Pt × Pt)) (b : Bool),
      point_in_ring_loop x y es b =
        (es.any (earlyB x y) ||
          (b != decide (es.countP (toggleB x y) % 2 = 1))) := by
  intro es
  induction es with
  | nil => intro b; simp [point_in_ring_loop]
  | cons e t ih =>
    intro b
    by_cases h1 : onEdgeB x y e = true
    · simp [point_in_ring_loop, h1, earlyB]
    · by_cases h2 : straddleB y e = true
      · by_cases h3 : xinters y e = x
        · simp [point_in_ring_loop, h1, h2, h3, earlyB]
        · by_cases h4 : x < xinters y e
          · have hloop : point_in_ring_loop x y (e :: t) b =
                point_in_ring_loop x y t (!b) := by
              simp [point_in_ring_loop, h1, h2, h3, h4]
            have hearly : earlyB x y e = false := by
              simp [earlyB, h1, h3]
            have htog : toggleB x y e = true := by
              simp [toggleB, hearly, h2, h4]
            rw [hloop, ih (!b), List.any_cons, hearly, List.countP_cons, htog]
            have hpar : decide ((t.countP (toggleB x y) + 1) % 2 = 1) =
                !decide (t.countP (toggleB x y) % 2 = 1) := by
              rcases Nat.even_or_odd (t.countP (toggleB x y)) with hev | hod
              · have h5 : t.countP (toggleB x y) % 2 = 0 := Nat.even_iff.1 hev
                have h6 : (t.countP (toggleB x y) + 1) % 2 = 1 := by omega
                simp [h5, h6]
              · have h5 : t.countP (toggleB x y) % 2 = 1 := Nat.odd_iff.1 hod
                have h6 : (t.countP (toggleB x y) + 1) % 2 = 0 := by omega
                simp [h5, h6]
            have hite : (t.countP (toggleB x y) + if true = true then 1 else 0) =
                t.countP (toggleB x y) + 1 := rfl
            rw [hite, hpar]
            cases b <;> cases t.any (earlyB x y) <;>
              cases hq : decide (t.countP (toggleB x y) % 2 = 1) <;> simp
          · have hloop : point_in_ring_loop x y (e :: t) b =
                point_in_ring_loop x y t b := by
              simp [point_in_ring_loop, h1, h2, h3, h4]
            have hearly : earlyB x y e = false := by
              simp [earlyB, h1, h3]
            have htog : toggleB x y e = false := by
              simp [toggleB, h4]
            rw [hloop, ih b, List.any_cons, hearly, List.countP_cons, htog]
            simp
      · have hloop : point_in_ring_loop x y (e :: t) b =
            point_in_ring_loop x y t b := by
          simp [point_in_ring_loop, h1, h2]
        have hearly : earlyB x y e = false := by
          simp [earlyB, h1, h2]
        have htog : toggleB x y e = false := by
          simp [toggleB, h2]
        rw [hloop, ih b, List.any_cons, hearly, List.countP_cons, htog]
        simp

theorem point_in_ring_eq (x y : ℚ) (ring : List Pt) :
    point_in_ring x y ring =
      ((edges ring).any (earlyB x y) ||
        decide ((edges ring).countP (toggleB x y) % 2 = 1)) := by
  rw [point_in_ring, point_in_ring_loop_eq]
  simp

/-! ### Geometric bounds for the ray-cast loop -/

theorem straddle_iff (y : ℚ) (e : Pt × Pt) :
    straddleB y e = true ↔
      ((y < e.1.2 ∧ ¬y < e.2.2) ∨ (¬y < e.1.2 ∧ y < e.2.2)) := by
  rw [straddleB, bne_iff_ne, ne_eq, decide_eq_decide]
  by_cases h1 : y < e.1.2 <;> by_cases h2 : y < e.2.2 <;> simp [h1, h2]

theorem straddle_y_bounds {y : ℚ} {e : Pt × Pt} (h : straddleB y e = true) :
    min e.1.2 e.2.2 ≤ y ∧ y < max e.1.2 e.2.2 := by
  rcases (straddle_iff y e).1 h with ⟨h1, h2⟩ | ⟨h1, h2⟩
  · constructor
    · exact le_trans (min_le_right _ _) (not_lt.1 h2)
    · exact lt_of_lt_of_le h1 (le_max_left _ _)
  · constructor
    · exact le_trans (min_le_left _ _) (not_lt.1 h1)
    · exact lt_of_lt_of_le h2 (le_max_right _ _)

theorem straddle_dy_ne {y : ℚ} {e : Pt × Pt} (h : straddleB y e = true) :
    e.2.2 - e.1.2 + 0 ≠ 0 := by
  rcases (straddle_iff y e).1 h with ⟨h1, h2⟩ | ⟨h1, h2⟩
  · rw [not_lt] at h2; intro hc; apply absurd h1; rw [not_lt]; linarith
  · rw [not_lt] at h1; intro hc; apply absurd h2; rw [not_lt]; linarith

theorem xinters_bounds {y : ℚ} {e : Pt × Pt} (h : straddleB y e = true) :
    min e.1.1 e.2.1 ≤ xinters y e ∧ xinters y e ≤ max e.1.1 e.2.1 := by
  have hform : xinters y e =
      e.1.1 + ((y - e.1.2) / (e.2.2 - e.1.2)) * (e.2.1 - e.1.1) := by
    rw [xinters]; ring
  rw [hform]
  have ht : 0 ≤ (y - e.1.2) / (e.2.2 - e.1.2) ∧
      (y - e.1.2) / (e.2.2 - e.1.2) ≤ 1 := by
    rcases (straddle_iff y e).1 h with ⟨h1, h2⟩ | ⟨h1, h2⟩
    · rw [not_lt] at h2
      have hd : e.1.2 - e.2.2 > 0 := by linarith
      have hneg : (y - e.1.2) / (e.2.2 - e.1.2) =
          (e.1.2 - y) / (e.1.2 - e.2.2) := by
        rw [div_eq_div_iff (by linarith) (by linarith)]; ring
      rw [hneg]
      constructor
      · exact div_nonneg (by linarith) (by linarith)
      · rw [div_le_one hd]; linarith
    · rw [not_lt] at h1
      have hd : e.2.2 - e.1.2 > 0 := by linarith
      constructor
      · exact div_nonneg (by linarith) (by linarith)
      · rw [div_le_one hd]; linarith
  exact convex_between e.1.1 e.2.1 _ ht.1 ht.2

theorem zip_wrap_flip_parity (f : Pt → Bool) :
    ∀ (t : List Pt) (hd first : Pt),
      (((hd :: t).zip (t ++ [first])).countP (fun pq => f pq.1 != f pq.2)) % 2 =
        (if f hd != f first then 1 else 0) := by
  intro t
  induction t with
  | nil =>
    intro hd first
    cases h : f hd != f first <;>
      simp [List.countP_cons, h]
  | cons q qs ih =>
    intro hd first
    have hz : (hd :: q :: qs).zip ((q :: qs) ++ [first]) =
        (hd, q) :: ((q :: qs).zip (qs ++ [first])) := rfl
    rw [hz, List.countP_cons]
    have hq := ih q first
    cases h1 : f hd <;> cases h2 : f q <;> cases h3 : f first <;>
      simp [h1, h2, h3] at hq ⊢ <;> omega

theorem cyclic_flip_even (f : Pt → Bool) (l : List Pt) :
    ((l.zip (l.rotate 1)).countP (fun pq => f pq.1 != f pq.2)) % 2 = 0 := by
  cases l with
  | nil => rfl
  | cons hd t =>
    rw [List.rotate_cons_succ, List.rotate_zero, zip_wrap_flip_parity f t hd hd]
    simp

theorem straddle_count_even (y : ℚ) (ring : List Pt) :
    ((edges ring).countP (straddleB y)) % 2 = 0 := by
  rw [edges_eq_zip]
  exact cyclic_flip_even (fun p => decide (y < p.2)) ring

theorem early_edge_bounds {x y minx miny maxx maxy : ℚ} {ring : List Pt}
    {e : Pt × Pt}
    (hb : ∀ p ∈ ring, minx ≤ p.1 ∧ p.1 ≤ maxx ∧ miny ≤ p.2 ∧ p.2 ≤ maxy)
    (he : e ∈ edges ring) (h : earlyB x y e = true) :
    minx ≤ x ∧ x ≤ maxx ∧ miny ≤ y ∧ y ≤ maxy := by
  obtain ⟨h1mem, h2mem⟩ := mem_of_mem_edges he
  obtain ⟨ha1, ha2, ha3, ha4⟩ := hb e.1 h1mem
  obtain ⟨hc1, hc2, hc3, hc4⟩ := hb e.2 h2mem
  rw [earlyB, Bool.or_eq_true] at h
  rcases h with h | h
  · rw [onEdgeB, decide_eq_true_eq] at h
    obtain ⟨hx1, hx2, hy1, hy2, -⟩ := h
    exact ⟨le_trans (le_min ha1 hc1) hx1, le_trans hx2 (max_le ha2 hc2),
      le_trans (le_min ha3 hc3) hy1, le_trans hy2 (max_le ha4 hc4)⟩
  · rw [Bool.and_eq_true, decide_eq_true_eq] at h
    obtain ⟨hs, hxe⟩ := h
    obtain ⟨hxl, hxr⟩ := xinters_bounds hs
    obtain ⟨hyl, hyr⟩ := straddle_y_bounds hs
    rw [hxe] at hxl hxr
    exact ⟨le_trans (le_min ha1 hc1) hxl, le_trans hxr (max_le ha2 hc2),
      le_trans (le_min ha3 hc3) hyl, le_trans (le_of_lt hyr) (max_le ha4 hc4)⟩

theorem point_in_ring_bounds {x y minx miny maxx maxy : ℚ} {ring : List Pt}
    (hb : ∀ p ∈ ring, minx ≤ p.1 ∧ p.1 ≤ maxx ∧ miny ≤ p.2 ∧ p.2 ≤ maxy)
    (h : point_in_ring x y ring = true) :
    minx ≤ x ∧ x ≤ maxx ∧ miny ≤ y ∧ y ≤ maxy := by
  rw [point_in_ring_eq, Bool.or_eq_true] at h
  by_cases hearly : (edges ring).any (earlyB x y) = true
  · obtain ⟨e, he, hee⟩ := List.any_eq_true.1 hearly
    exact early_edge_bounds hb he hee
  · have hpar : ((edges ring).countP (toggleB x y)) % 2 = 1 := by
      rcases h with h | h
      · exact absurd h hearly
      · exact of_decide_eq_true h
    have hall : ∀ a ∈ edges ring, earlyB x y a = false := by
      intro a ha
      by_contra hc
      exact hearly (List.any_eq_true.2
        ⟨a, ha, by revert hc; cases earlyB x y a <;> simp⟩)
    have htogpos : 0 < (edges ring).countP (toggleB x y) := by omega
    obtain ⟨e, he, hte⟩ := List.countP_pos_iff.1 htogpos
    have hte' : straddleB y e = true ∧ x < xinters y e := by
      rw [toggleB, Bool.and_eq_true, Bool.and_eq_true, decide_eq_true_eq] at hte
      exact ⟨hte.1.2, hte.2⟩
    obtain ⟨h1mem, h2mem⟩ := mem_of_mem_edges he
    obtain ⟨ha1, ha2, ha3, ha4⟩ := hb e.1 h1mem
    obtain ⟨hc1, hc2, hc3, hc4⟩ := hb e.2 h2mem
    obtain ⟨hyl, hyr⟩ := straddle_y_bounds hte'.1
    obtain ⟨-, hxr⟩ := xinters_bounds hte'.1
    have hxmax : x ≤ maxx :=
      le_trans (le_of_lt (lt_of_lt_of_le hte'.2 hxr)) (max_le ha2 hc2)
    have hcnt_tog : (edges ring).countP (toggleB x y) =
        (edges ring).countP (fun a => straddleB y a && decide (x < xinters y a)) := by
      apply List.countP_congr
      intro a ha
      have h0 : earlyB x y a = false := hall a ha
      simp [toggleB, h0]
    have hsplit := countP_split (straddleB y)
      (fun a => decide (x < xinters y a)) (edges ring)
    have heven := straddle_count_even y ring
    have holtpos :
        0 < (edges ring).countP
          (fun a => straddleB y a && !decide (x < xinters y a)) := by
      omega
    obtain ⟨a, hamem, haprop⟩ := List.countP_pos_iff.1 holtpos
    have has : straddleB y a = true ∧ ¬x < xinters y a := by
      rw [Bool.and_eq_true, Bool.not_eq_true', decide_eq_false_iff_not] at haprop
      exact haprop
    have hane : xinters y a ≠ x := by
      intro hc
      have h0 : earlyB x y a = false := hall a hamem
      simp [earlyB, has.1, hc] at h0
    have haxlt : xinters y a < x := lt_of_le_of_ne (not_lt.1 has.2) hane
    obtain ⟨hal1, -⟩ := xinters_bounds has.1
    obtain ⟨ham1, ham2⟩ := mem_of_mem_edges hamem
    obtain ⟨hb1, -, -, -⟩ := hb a.1 ham1
    obtain ⟨hb2, -, -, -⟩ := hb a.2 ham2
    have hxmin : minx ≤ x :=
      le_of_lt (lt_of_le_of_lt (le_trans (le_min hb1 hb2) hal1) haxlt)
    exact ⟨hxmin, hxmax, le_trans (le_min ha3 hc3) hyl,
      le_trans (le_of_lt hyr) (max_le ha4 hc4)⟩

/-! ### The boundary-inclusive on-edge check -/

theorem eps_pos : (0 : ℚ) < eps := by norm_num [eps]

theorem onEdgeB_of_onSegment {x y : ℚ} {e : Pt × Pt}
    (h : OnSegment (x, y) e.1 e.2) : onEdgeB x y e = true := by
  obtain ⟨t, h0, h1, hx0, hy0⟩ := h
  have hx : x = e.1.1 + t * (e.2.1 - e.1.1) := hx0
  have hy : y = e.1.2 + t * (e.2.2 - e.1.2) := hy0
  rw [onEdgeB, decide_eq_true_eq]
  obtain ⟨hxl, hxr⟩ := convex_between e.1.1 e.2.1 t h0 h1
  obtain ⟨hyl, hyr⟩ := convex_between e.1.2 e.2.2 t h0 h1
  rw [← hx] at hxl hxr
  rw [← hy] at hyl hyr
  refine ⟨hxl, hxr, hyl, hyr, ?_⟩
  have hzero : (x - e.1.1) * (e.2.2 - e.1.2) - (y - e.1.2) * (e.2.1 - e.1.1) = 0 := by
    rw [hx, hy]; ring
  rw [hzero, abs_zero]
  exact mul_nonneg (le_of_lt eps_pos)
    (le_trans zero_le_one (le_max_left _ _))

/-! ### The squared segment distance -/

theorem dps_t_mem (px py x1 y1 x2 y2 : ℚ) :
    0 ≤ dps_t px py x1 y1 x2 y2 ∧ dps_t px py x1 y1 x2 y2 ≤ 1 := by
  rw [dps_t]
  split_ifs
  · norm_num
  · exact ⟨le_max_left _ _, max_le zero_le_one (min_le_left _ _)⟩

theorem dist_point_segment_sq_eq (px py x1 y1 x2 y2 : ℚ) :
    dist_point_segment_sq px py x1 y1 x2 y2 =
      (px - (x1 + dps_t px py x1 y1 x2 y2 * (x2 - x1))) *
        (px - (x1 + dps_t px py x1 y1 x2 y2 * (x2 - x1))) +
      (py - (y1 + dps_t px py x1 y1 x2 y2 * (y2 - y1))) *
        (py - (y1 + dps_t px py x1 y1 x2 y2 * (y2 - y1))) := rfl

theorem dist_point_segment_sq_nonneg (px py x1 y1 x2 y2 : ℚ) :
    0 ≤ dist_point_segment_sq px py x1 y1 x2 y2 := by
  rw [dist_point_segment_sq_eq]
  exact sum_sq_nonneg _ _

theorem dps_t_of_onSegment {px py x1 y1 x2 y2 s : ℚ}
    (hs0 : 0 ≤ s) (hs1 : s ≤ 1)
    (hx : px = x1 + s * (x2 - x1)) (hy : py = y1 + s * (y2 - y1)) :
    px - (x1 + dps_t px py x1 y1 x2 y2 * (x2 - x1)) = 0 ∧
    py - (y1 + dps_t px py x1 y1 x2 y2 * (y2 - y1)) = 0 := by
  rw [dps_t]
  by_cases hd : (x2 - x1) * (x2 - x1) + (y2 - y1) * (y2 - y1) = 0
  · have hvx : x2 - x1 = 0 := by nlinarith [sq_nonneg (x2 - x1), sq_nonneg (y2 - y1)]
    have hvy : y2 - y1 = 0 := by nlinarith [sq_nonneg (x2 - x1), sq_nonneg (y2 - y1)]
    simp only [hd, if_pos]
    constructor <;> [rw [hx, hvx]; rw [hy, hvy]] <;> ring
  · have hnum : (px - x1) * (x2 - x1) + (py - y1) * (y2 - y1) =
        s * ((x2 - x1) * (x2 - x1) + (y2 - y1) * (y2 - y1)) := by
      rw [hx, hy]; ring
    rw [if_neg hd, hnum, mul_div_cancel_right₀ s hd, min_eq_right hs1,
      max_eq_right hs0]
    constructor <;> [rw [hx]; rw [hy]] <;> ring

theorem dist_point_segment_sq_eq_zero_iff (px py x1 y1 x2 y2 : ℚ) :
    dist_point_segment_sq px py x1 y1 x2 y2 = 0 ↔
      OnSegment (px, py) (x1, y1) (x2, y2) := by
  constructor
  · intro h
    rw [dist_point_segment_sq_eq] at h
    set t := dps_t px py x1 y1 x2 y2 with ht
    have hA : px - (x1 + t * (x2 - x1)) = 0 := by
      nlinarith [mul_self_nonneg (px - (x1 + t * (x2 - x1))),
        mul_self_nonneg (py - (y1 + t * (y2 - y1)))]
    have hB : py - (y1 + t * (y2 - y1)) = 0 := by
      nlinarith [mul_self_nonneg (px - (x1 + t * (x2 - x1))),
        mul_self_nonneg (py - (y1 + t * (y2 - y1)))]
    obtain ⟨h0, h1⟩ := dps_t_mem px py x1 y1 x2 y2
    exact ⟨t, h0, h1, by linarith, by linarith⟩
  · intro h
    obtain ⟨s, hs0, hs1, hx0, hy0⟩ := h
    have hx : px = x1 + s * (x2 - x1) := hx0
    have hy : py = y1 + s * (y2 - y1) := hy0
    obtain ⟨hA, hB⟩ := dps_t_of_onSegment hs0 hs1 hx hy
    rw [dist_point_segment_sq_eq, hA, hB]
    ring

theorem dist_point_segment_nonneg (px py x1 y1 x2 y2 : ℚ) :
    0 ≤ dist_point_segment px py x1 y1 x2 y2 :=
  Real.sqrt_nonneg _

theorem dist_point_segment_eq_zero_iff (px py x1 y1 x2 y2 : ℚ) :
    dist_point_segment px py x1 y1 x2 y2 = 0 ↔
      OnSegment (px, py) (x1, y1) (x2, y2) := by
  rw [dist_point_segment,
    Real.sqrt_eq_zero (by exact_mod_cast dist_point_segment_sq_nonneg px py x1 y1 x2 y2)]
  rw [show (((dist_point_segment_sq px py x1 y1 x2 y2 : ℚ) : ℝ) = 0) ↔
      dist_point_segment_sq px py x1 y1 x2 y2 = 0 by exact_mod_cast Iff.rfl]
  exact dist_point_segment_sq_eq_zero_iff px py x1 y1 x2 y2

/-! ### `distance_to_polygon` as a flat minimum -/

theorem distance_to_polygon_foldl (x y : ℚ) :
    ∀ (rings : List (List Pt)) (c : EReal),
      rings.foldl
        (fun dmin ring =>
          (edges ring).foldl
            (fun dmin e =>
              min dmin ((dist_point_segment x y e.1.1 e.1.2 e.2.1 e.2.2 : ℝ) : EReal))
            dmin)
        c = (edge_dists x y rings).foldl min c := by
  intro rings
  induction rings with
  | nil => intro c; rfl
  | cons r rs ih =>
    intro c
    have h1 : edge_dists x y (r :: rs) =
        (edges r).map
          (fun e => ((dist_point_segment x y e.1.1 e.1.2 e.2.1 e.2.2 : ℝ) : EReal)) ++
          edge_dists x y rs := by
      rw [edge_dists, List.map_cons, List.flatten_cons]; rfl
    rw [h1, List.foldl_append]
    have h2 : ∀ c' : EReal,
        (edges r).foldl
          (fun dmin e =>
            min dmin ((dist_point_segment x y e.1.1 e.1.2 e.2.1 e.2.2 : ℝ) : EReal))
          c' =
        ((edges r).map
          (fun e => ((dist_point_segment x y e.1.1 e.1.2 e.2.1 e.2.2 : ℝ) : EReal))).foldl
          min c' := by
      intro c'
      rw [List.foldl_map]
    calc (r :: rs).foldl _ c = rs.foldl _ ((edges r).foldl _ c) := rfl
    _ = (edge_dists x y rs).foldl min ((edges r).foldl _ c) := ih _
    _ = (edge_dists x y rs).foldl min
        (((edges r).map _).foldl min c) := by rw [h2]

theorem distance_to_polygon_eq (x y : ℚ) (rings : List (List Pt)) :
    distance_to_polygon x y rings = (edge_dists x y rings).foldl min ⊤ := by
  rw [distance_to_polygon, distance_to_polygon_foldl]

theorem mem_edge_dists {x y : ℚ} {rings : List (List Pt)} {d : EReal} :
    d ∈ edge_dists x y rings ↔
      ∃ r ∈ rings, ∃ e ∈ edges r,
        d = ((dist_point_segment x y e.1.1 e.1.2 e.2.1 e.2.2 : ℝ) : EReal) := by
  rw [edge_dists, List.mem_flatten]
  constructor
  · rintro ⟨s, hs, hds⟩
    obtain ⟨r, hr, rfl⟩ := List.mem_map.1 hs
    obtain ⟨e, he, rfl⟩ := List.mem_map.1 hds
    exact ⟨r, hr, e, he, rfl⟩
  · rintro ⟨r, hr, e, he, rfl⟩
    exact ⟨_, List.mem_map.2 ⟨r, hr, rfl⟩, List.mem_map.2 ⟨e, he, rfl⟩⟩

theorem edge_dists_nonneg {x y : ℚ} {rings : List (List Pt)} {d : EReal}
    (h : d ∈ edge_dists x y rings) : 0 ≤ d := by
  obtain ⟨r, -, e, -, rfl⟩ := mem_edge_dists.1 h
  exact EReal.coe_nonneg.2 (dist_point_segment_nonneg _ _ _ _ _ _)

theorem distance_to_polygon_nonneg (x y : ℚ) (rings : List (List Pt)) :
    0 ≤ distance_to_polygon x y rings := by
  rw [distance_to_polygon_eq]
  exact le_foldl_min _ _ _ le_top (fun a ha => edge_dists_nonneg ha)

theorem distance_to_polygon_eq_zero_iff (x y : ℚ) (rings : List (List Pt)) :
    distance_to_polygon x y rings = 0 ↔
      ∃ r ∈ rings, ∃ e ∈ edges r, OnSegment (x, y) e.1 e.2 := by
  rw [distance_to_polygon_eq]
  constructor
  · intro h
    rcases foldl_min_mem (edge_dists x y rings) ⊤ with hc | hc
    · rw [h] at hc
      exact absurd hc.symm (by simp)
    · rw [h] at hc
      obtain ⟨r, hr, e, he, hd⟩ := mem_edge_dists.1 hc
      refine ⟨r, hr, e, he, ?_⟩
      have h0 : dist_point_segment x y e.1.1 e.1.2 e.2.1 e.2.2 = 0 := by
        exact_mod_cast hd.symm
      exact (dist_point_segment_eq_zero_iff _ _ _ _ _ _).1 h0
  · rintro ⟨r, hr, e, he, hseg⟩
    have h0 : dist_point_segment x y e.1.1 e.1.2 e.2.1 e.2.2 = 0 :=
      (dist_point_segment_eq_zero_iff _ _ _ _ _ _).2 hseg
    have hmem : (0 : EReal) ∈ edge_dists x y rings := by
      rw [mem_edge_dists]
      exact ⟨r, hr, e, he, by rw [h0]; rfl⟩
    have hle : (edge_dists x y rings).foldl min ⊤ ≤ 0 :=
      foldl_min_le_mem _ _ _ hmem
    have hge : (0 : EReal) ≤ (edge_dists x y rings).foldl min ⊤ :=
      le_foldl_min _ _ _ le_top (fun a ha => edge_dists_nonneg ha)
    exact le_antisymm hle hge

theorem distance_to_polygon_lt_top {x y : ℚ} {rings : List (List Pt)}
    (h : ∃ r ∈ rings, r ≠ []) : distance_to_polygon x y rings < ⊤ := by
  obtain ⟨r, hr, hne⟩ := h
  have hlen : edges r ≠ [] := by
    intro hc
    apply hne
    have := edges_length r
    rw [hc] at this
    exact List.length_eq_zero.1 this.symm
  obtain ⟨e, he⟩ := List.exists_mem_of_ne_nil _ hlen
  have hmem : ((dist_point_segment x y e.1.1 e.1.2 e.2.1 e.2.2 : ℝ) : EReal) ∈
      edge_dists x y rings := mem_edge_dists.2 ⟨r, hr, e, he, rfl⟩
  rw [distance_to_polygon_eq]
  exact lt_of_le_of_lt (foldl_min_le_mem _ _ _ hmem) (EReal.coe_lt_top _)

/-! ### The nearest-ward scan -/

theorem nearestScan_foldl_none (x y : ℚ) :
    ∀ (ws : List Ward) (b0 : Option Ward) (d0 : EReal),
      (∀ w ∈ ws, ¬ward_distance x y w < d0) →
      ws.foldl (near_step x y) (b0, d0) = (b0, d0) := by
  intro ws
  induction ws with
  | nil => intro b0 d0 _; rfl
  | cons w rest ih =>
    intro b0 d0 h
    have hstep : near_step x y (b0, d0) w = (b0, d0) := by
      rw [near_step, if_neg (h w (List.mem_cons_self w rest))]
    calc (w :: rest).foldl (near_step x y) (b0, d0)
        = rest.foldl (near_step x y) (near_step x y (b0, d0) w) := rfl
    _ = (b0, d0) := by
        rw [hstep]
        exact ih b0 d0 (fun w' hw' => h w' (List.mem_cons.2 (Or.inr hw')))

theorem nearestScan_foldl_found (x y : ℚ) :
    ∀ (ws : List Ward) (b0 : Option Ward) (d0 : EReal),
      (∃ w ∈ ws, ward_distance x y w < d0) →
      ∃ i, ∃ h : i < ws.length,
        ws.foldl (near_step x y) (b0, d0) =
          (some (ws.get ⟨i, h⟩), ward_distance x y (ws.get ⟨i, h⟩)) ∧
        ward_distance x y (ws.get ⟨i, h⟩) < d0 ∧
        (∀ j (hj : j < ws.length),
          ward_distance x y (ws.get ⟨i, h⟩) ≤ ward_distance x y (ws.get ⟨j, hj⟩)) ∧
        (∀ j (hj : j < ws.length), j < i →
          ward_distance x y (ws.get ⟨i, h⟩) < ward_distance x y (ws.get ⟨j, hj⟩)) := by
  intro ws
  induction ws with
  | nil =>
    intro b0 d0 h
    obtain ⟨w, hw, -⟩ := h
    exact absurd hw (List.not_mem_nil w)
  | cons w rest ih =>
    intro b0 d0 hex
    by_cases hd : ward_distance x y w < d0
    · have hstep : (w :: rest).foldl (near_step x y) (b0, d0) =
          rest.foldl (near_step x y) (some w, ward_distance x y w) := by
        show rest.foldl (near_step x y) (near_step x y (b0, d0) w) = _
        rw [near_step, if_pos hd]
      by_cases hrest : ∃ w' ∈ rest, ward_distance x y w' < ward_distance x y w
      · obtain ⟨i, hi, hfold, hlt, hmin, hstrict⟩ :=
          ih (some w) (ward_distance x y w) hrest
        refine ⟨i + 1, Nat.succ_lt_succ hi, ?_, lt_trans hlt hd, ?_, ?_⟩
        · rw [hstep, hfold]; rfl
        · intro j hj
          cases j with
          | zero => exact le_of_lt hlt
          | succ k => exact hmin k (Nat.lt_of_succ_lt_succ hj)
        · intro j hj hji
          cases j with
          | zero => exact hlt
          | succ k =>
            exact hstrict k (Nat.lt_of_succ_lt_succ hj) (Nat.lt_of_succ_lt_succ hji)
      · push_neg at hrest
        have hfold : rest.foldl (near_step x y) (some w, ward_distance x y w) =
            (some w, ward_distance x y w) :=
          nearestScan_foldl_none x y rest (some w) (ward_distance x y w)
            (fun w' hw' => not_lt.2 (hrest w' hw'))
        refine ⟨0, Nat.succ_pos _, ?_, hd, ?_, ?_⟩
        · rw [hstep, hfold]; rfl
        · intro j hj
          cases j with
          | zero => exact le_refl _
          | succ k =>
            exact hrest _ (List.get_mem rest k (Nat.lt_of_succ_lt_succ hj))
        · intro j hj hj0
          exact absurd hj0 (Nat.not_lt_zero j)
    · have hstep : (w :: rest).foldl (near_step x y) (b0, d0) =
          rest.foldl (near_step x y) (b0, d0) := by
        show rest.foldl (near_step x y) (near_step x y (b0, d0) w) = _
        rw [near_step, if_neg hd]
      have hex' : ∃ w' ∈ rest, ward_distance x y w' < d0 := by
        obtain ⟨w', hw', hlt⟩ := hex
        rcases List.mem_cons.1 hw' with rfl | hw'
        · exact absurd hlt hd
        · exact ⟨w', hw', hlt⟩
      obtain ⟨i, hi, hfold, hlt, hmin, hstrict⟩ := ih b0 d0 hex'
      refine ⟨i + 1, Nat.succ_lt_succ hi, ?_, hlt, ?_, ?_⟩
      · rw [hstep, hfold]; rfl
      · intro j hj
        cases j with
        | zero => exact le_trans (le_of_lt hlt) (not_lt.1 hd)
        | succ k => exact hmin k (Nat.lt_of_succ_lt_succ hj)
      · intro j hj hji
        cases j with
        | zero => exact lt_of_lt_of_le hlt (not_lt.1 hd)
        | succ k =>
          exact hstrict k (Nat.lt_of_succ_lt_succ hj) (Nat.lt_of_succ_lt_succ hji)

/-! ### Checked division never fails on the source's divisions -/

theorem dist_point_segment_sq_checked_eq (px py x1 y1 x2 y2 : ℚ) :
    dist_point_segment_sq_checked px py x1 y1 x2 y2 =
      some (dist_point_segment_sq px py x1 y1 x2 y2) := by
  rw [dist_point_segment_sq_checked, dist_point_segment_sq]
  by_cases hd : (x2 - x1) * (x2 - x1) + (y2 - y1) * (y2 - y1) = 0
  · simp only [hd, if_pos]
    rfl
  · simp only [hd, if_neg, checked_div, if_false]
    simp [hd]

theorem point_in_ring_loop_checked_eq (x y : ℚ) :
    ∀ (es : List (Pt × Pt)) (b : Bool),
      point_in_ring_loop_checked x y es b = some (point_in_ring_loop x y es b) := by
  intro es
  induction es with
  | nil => intro b; rfl
  | cons e t ih =>
    intro b
    by_cases h1 : onEdgeB x y e = true
    · simp [point_in_ring_loop_checked, point_in_ring_loop, h1]
    · by_cases h2 : straddleB y e = true
      · have hne : e.2.2 - e.1.2 + 0 ≠ 0 := straddle_dy_ne h2
        have hne' : e.2.2 - e.1.2 ≠ 0 := by
          intro hc
          exact hne (by rw [hc]; ring)
        have hcd : checked_div ((e.2.1 - e.1.1) * (y - e.1.2)) (e.2.2 - e.1.2) =
            some ((e.2.1 - e.1.1) * (y - e.1.2) / (e.2.2 - e.1.2)) := by
          rw [checked_div, if_neg hne']
        have hxq : (e.2.1 - e.1.1) * (y - e.1.2) / (e.2.2 - e.1.2) + e.1.1 =
            xinters y e := by
          rw [xinters]
          ring
        by_cases h3 : xinters y e = x
        · simp [point_in_ring_loop_checked, point_in_ring_loop, h1, h2, hcd, hxq, h3]
        · by_cases h4 : x < xinters y e
          · simp [point_in_ring_loop_checked, point_in_ring_loop, h1, h2, hcd, hxq,
              h3, h4, ih]
          · simp [point_in_ring_loop_checked, point_in_ring_loop, h1, h2, hcd, hxq,
              h3, h4, ih]
      · simp [point_in_ring_loop_checked, point_in_ring_loop, h1, h2, ih]

theorem point_in_ring_checked_eq (x y : ℚ) (ring : List Pt) :
    point_in_ring_checked x y ring = some (point_in_ring x y ring) :=
  point_in_ring_loop_checked_eq x y (edges ring) false

/-! ### Shell and hole classification -/

theorem shell_filter_eq (rings : List (List Pt)) :
    rings.filter (fun r => decide (signed_area r ≤ 0)) = shell_rings rings := by
  rw [shell_rings]
  apply List.filter_congr
  intro r _
  by_cases h : 0 < signed_area r
  · simp [h, not_le.2 h]
  · simp [h, not_lt.1 h]

theorem claim_shells_eq (rings : List (List Pt)) (h : rings ≠ []) :
    claim_shells rings = eff_shells rings := by
  rw [claim_shells, eff_shells, shell_filter_eq]
  by_cases hc : shell_rings rings = []
  · rw [if_pos hc, if_pos ⟨hc, h⟩]
  · rw [if_neg hc, if_neg (fun hand => hc hand.1)]

theorem claim_holes_eq (rings : List (List Pt)) (h : rings ≠ []) :
    claim_holes rings = eff_holes rings := by
  rw [claim_holes, eff_holes, shell_filter_eq]
  by_cases hc : shell_rings rings = []
  · rw [if_pos hc, if_pos ⟨hc, h⟩]
  · rw [if_neg hc, if_neg (fun hand => hc hand.1)]
    rfl

theorem eff_shells_subset (rings : List (List Pt)) : eff_shells rings ⊆ rings := by
  rw [eff_shells]
  split_ifs
  · exact fun a ha => ha
  · exact List.filter_subset' rings

theorem point_in_polygon_iff (x y : ℚ) (rings : List (List Pt)) :
    point_in_polygon x y rings = true ↔
      ((∃ shell ∈ eff_shells rings, point_in_ring x y shell = true) ∧
        ∀ hole ∈ eff_holes rings, point_in_ring x y hole = false) := by
  rw [point_in_polygon]
  cases hf : (eff_shells rings).find? (fun shell => point_in_ring x y shell) with
  | none =>
    simp only []
    constructor
    · intro h
      exact absurd h (by simp)
    · rintro ⟨⟨s, hs, hps⟩, -⟩
      exact absurd hps (List.find?_eq_none.1 hf s hs)
  | some s =>
    have hmem := List.mem_of_find?_eq_some hf
    have hps := List.find?_some hf
    simp only [List.all_eq_true]
    constructor
    · intro h
      refine ⟨⟨s, hmem, hps⟩, fun hole hh => ?_⟩
      have := h hole hh
      rwa [Bool.not_eq_true'] at this
    · rintro ⟨-, hh⟩ hole hmem2
      rw [hh hole hmem2]
      rfl

/-! ### Claim theorems -/

/-- C1: for a non-empty ring list, `point_in_polygon` is true exactly when the
point lies in at least one shell of the sign-based classification (with the
all-shells fallback when that classification yields zero shells) and lies in
no hole of that classification. -/
theorem point_in_polygon_shell_hole_spec (x y : ℚ) (rings : List (List Pt))
    (h : rings ≠ []) :
    point_in_polygon x y rings = true ↔
      ((∃ shell ∈ claim_shells rings, point_in_ring x y shell = true) ∧
        ∀ hole ∈ claim_holes rings, point_in_ring x y hole = false) := by
  rw [claim_shells_eq rings h, claim_holes_eq rings h]
  exact point_in_polygon_iff x y rings

/-- Witness for C1 at the shell-plus-hole fixture and the point (2, 2). -/
theorem point_in_polygon_shell_hole_spec_witness :
    ([shell20, hole5] ≠ ([] : List (List Pt))) ∧
      (point_in_polygon 2 2 [shell20, hole5] = true ↔
        ((∃ shell ∈ claim_shells [shell20, hole5],
            point_in_ring 2 2 shell = true) ∧
          ∀ hole ∈ claim_holes [shell20, hole5],
            point_in_ring 2 2 hole = false)) :=
  ⟨by decide, point_in_polygon_shell_hole_spec 2 2 [shell20, hole5] (by decide)⟩

/-- C2: a point lying exactly on one of a ring's edges (vertices included)
is always classified inside by `point_in_ring`. -/
theorem point_in_ring_boundary_inclusive (x y : ℚ) (ring : List Pt)
    (h : ∃ e ∈ edges ring, OnSegment (x, y) e.1 e.2) :
    point_in_ring x y ring = true := by
  obtain ⟨e, he, hseg⟩ := h
  rw [point_in_ring_eq, Bool.or_eq_true]
  left
  exact List.any_eq_true.2
    ⟨e, he, by rw [earlyB, onEdgeB_of_onSegment hseg]; rfl⟩

/-- Witness for C2: the point (10, 5) on the right edge of the CCW square. -/
theorem point_in_ring_boundary_inclusive_witness :
    (∃ e ∈ edges sq_ccw, OnSegment (10, 5) e.1 e.2) ∧
      point_in_ring 10 5 sq_ccw = true := by
  have hseg : ∃ e ∈ edges sq_ccw, OnSegment (10, 5) e.1 e.2 :=
    ⟨((10, 0), (10, 10)), by decide,
      ⟨1 / 2, by norm_num, by norm_num, by norm_num, by norm_num⟩⟩
  exact ⟨hseg, point_in_ring_boundary_inclusive 10 5 sq_ccw hseg⟩

/-- C3: with fallback enabled and no bbox candidate inside, `lookup` scans the
whole collection and returns the first ward attaining the strictly smallest
`distance_to_polygon`, with the distance rounded to 2 decimals. -/
theorem lookup_nearest_fallback_spec (wards : List Ward) (x y : ℚ)
    (hne : wards ≠ [])
    (hrings : ∀ w ∈ wards, ∃ r ∈ w.rings, r ≠ [])
    (hfail : ∀ w ∈ bboxFilter x y wards, point_in_polygon x y w.rings = false) :
    ∃ i, ∃ h : i < wards.length,
      lookup wards x y true =
        some (MatchResult.nearest (wards.get ⟨i, h⟩)
          (pyRound2 (ward_distance x y (wards.get ⟨i, h⟩)).toReal)) ∧
      (∀ j (hj : j < wards.length),
        ward_distance x y (wards.get ⟨i, h⟩) ≤
          ward_distance x y (wards.get ⟨j, hj⟩)) ∧
      (∀ j (hj : j < wards.length), j < i →
        ward_distance x y (wards.get ⟨i, h⟩) <
          ward_distance x y (wards.get ⟨j, hj⟩)) := by
  have hfind : (bboxFilter x y wards).find?
      (fun w => point_in_polygon x y w.rings) = none :=
    List.find?_eq_none.2 (fun w hw => by rw [hfail w hw]; simp)
  obtain ⟨w0, hw0⟩ := List.exists_mem_of_ne_nil wards hne
  have hex : ∃ w ∈ wards, ward_distance x y w < (⊤ : EReal) :=
    ⟨w0, hw0, distance_to_polygon_lt_top (hrings w0 hw0)⟩
  obtain ⟨i, hi, hfold, -, hmin, hstrict⟩ :=
    nearestScan_foldl_found x y wards none ⊤ hex
  refine ⟨i, hi, ?_, hmin, hstrict⟩
  rw [lookup]
  simp only [hfind, nearestScan, hfold, if_true]

/-- Witness for C3: a single square ward and the outside point (20, 5). -/
theorem lookup_nearest_fallback_spec_witness :
    (([ward_sq] : List Ward) ≠ [] ∧
      (∀ w ∈ ([ward_sq] : List Ward), ∃ r ∈ w.rings, r ≠ []) ∧
      (∀ w ∈ bboxFilter 20 5 [ward_sq],
        point_in_polygon 20 5 w.rings = false)) ∧
    (∃ i, ∃ h : i < ([ward_sq] : List Ward).length,
      lookup [ward_sq] 20 5 true =
        some (MatchResult.nearest (([ward_sq] : List Ward).get ⟨i, h⟩)
          (pyRound2 (ward_distance 20 5
            (([ward_sq] : List Ward).get ⟨i, h⟩)).toReal)) ∧
      (∀ j (hj : j < ([ward_sq] : List Ward).length),
        ward_distance 20 5 (([ward_sq] : List Ward).get ⟨i, h⟩) ≤
          ward_distance 20 5 (([ward_sq] : List Ward).get ⟨j, hj⟩)) ∧
      (∀ j (hj : j < ([ward_sq] : List Ward).length), j < i →
        ward_distance 20 5 (([ward_sq] : List Ward).get ⟨i, h⟩) <
          ward_distance 20 5 (([ward_sq] : List Ward).get ⟨j, hj⟩))) :=
  ⟨⟨by decide, by decide, by decide⟩,
    lookup_nearest_fallback_spec [ward_sq] 20 5 (by decide) (by decide) (by decide)⟩

/-- C4: the minimum boundary distance is zero exactly when the point lies on
some edge of some ring, holes included. -/
theorem distance_to_polygon_zero_iff_boundary (x y : ℚ) (rings : List (List Pt))
    (_h : ∀ r ∈ rings, r ≠ []) :
    distance_to_polygon x y rings = 0 ↔
      ∃ r ∈ rings, ∃ e ∈ edges r, OnSegment (x, y) e.1 e.2 :=
  distance_to_polygon_eq_zero_iff x y rings

/-- Witness for C4: the CW square and the boundary point (10, 5). -/
theorem distance_to_polygon_zero_iff_boundary_witness :
    (∀ r ∈ [sq_cw], r ≠ []) ∧
      (distance_to_polygon 10 5 [sq_cw] = 0 ↔
        ∃ r ∈ [sq_cw], ∃ e ∈ edges r, OnSegment (10, 5) e.1 e.2) :=
  ⟨by decide, distance_to_polygon_zero_iff_boundary 10 5 [sq_cw] (by decide)⟩

/-- C5: `lookup` returns `Inside` of the first bbox candidate, in collection
order, whose `point_in_polygon` test succeeds, for either fallback flag. -/
theorem lookup_first_inside_candidate (wards : List Ward) (x y : ℚ) (b : Bool)
    (i : ℕ) (h : i < (bboxFilter x y wards).length)
    (hpass : point_in_polygon x y
      ((bboxFilter x y wards).get ⟨i, h⟩).rings = true)
    (hfirst : ∀ j (hj : j < (bboxFilter x y wards).length), j < i →
      point_in_polygon x y ((bboxFilter x y wards).get ⟨j, hj⟩).rings = false) :
    lookup wards x y b =
      some (MatchResult.inside ((bboxFilter x y wards).get ⟨i, h⟩)) := by
  have hfind := find?_eq_some_of_first (fun w => point_in_polygon x y w.rings)
    (bboxFilter x y wards) i h hfirst hpass
  rw [lookup]
  simp only [hfind]

/-- Witness for C5: two identical overlapping square wards and the point
(1, 1); the first ward wins. -/
theorem lookup_first_inside_candidate_witness :
    ((0 : ℕ) < (bboxFilter 1 1 [ward_sq, ward_sq2]).length ∧
      point_in_polygon 1 1
        ((bboxFilter 1 1 [ward_sq, ward_sq2]).get
          ⟨0, by decide⟩).rings = true) ∧
    lookup [ward_sq, ward_sq2] 1 1 false =
      some (MatchResult.inside
        ((bboxFilter 1 1 [ward_sq, ward_sq2]).get ⟨0, by decide⟩)) :=
  ⟨⟨by decide, by
      norm_num [point_in_polygon, eff_shells, eff_holes, shell_rings, hole_rings,
        signed_area, cross, point_in_ring, point_in_ring_loop, edges, sq_cw,
        onEdgeB, straddleB, xinters, eps, min_def, max_def, abs_le,
        List.range_succ, List.filter, List.find?, bboxFilter, ward_sq, ward_sq2]⟩,
    lookup_first_inside_candidate [ward_sq, ward_sq2] 1 1 false 0 (by decide)
      (by
        norm_num [point_in_polygon, eff_shells, eff_holes, shell_rings, hole_rings,
          signed_area, cross, point_in_ring, point_in_ring_loop, edges, sq_cw,
          onEdgeB, straddleB, xinters, eps, min_def, max_def, abs_le,
          List.range_succ, List.filter, List.find?, bboxFilter, ward_sq, ward_sq2])
      (fun j hj hj0 => absurd hj0 (Nat.not_lt_zero j))⟩

/-- C6: under the bbox invariant, the bounding-box pre-filter keeps every ward
whose polygon contains the point, and it preserves collection order. -/
theorem bbox_filter_sound (x y : ℚ) (wards : List Ward) (w : Ward)
    (hbbox : ∀ r ∈ w.rings, ∀ p ∈ r,
      w.minx ≤ p.1 ∧ p.1 ≤ w.maxx ∧ w.miny ≤ p.2 ∧ p.2 ≤ w.maxy)
    (hmem : w ∈ wards)
    (hpip : point_in_polygon x y w.rings = true) :
    w ∈ bboxFilter x y wards ∧ (bboxFilter x y wards).Sublist wards := by
  refine ⟨?_, List.filter_sublist wards⟩
  obtain ⟨⟨s, hs, hps⟩, -⟩ := (point_in_polygon_iff x y w.rings).1 hpip
  have hs' : s ∈ w.rings := eff_shells_subset w.rings hs
  have hb := point_in_ring_bounds (hbbox s hs') hps
  rw [bboxFilter, List.mem_filter]
  exact ⟨hmem, decide_eq_true hb⟩

/-- Witness for C6: the square ward and the interior point (5, 5). -/
theorem bbox_filter_sound_witness :
    ((∀ r ∈ ward_sq.rings, ∀ p ∈ r,
        ward_sq.minx ≤ p.1 ∧ p.1 ≤ ward_sq.maxx ∧
        ward_sq.miny ≤ p.2 ∧ p.2 ≤ ward_sq.maxy) ∧
      ward_sq ∈ ([ward_sq] : List Ward) ∧
      point_in_polygon 5 5 ward_sq.rings = true) ∧
    (ward_sq ∈ bboxFilter 5 5 [ward_sq] ∧
      (bboxFilter 5 5 [ward_sq]).Sublist [ward_sq]) :=
  ⟨⟨by decide, by decide, by
      norm_num [point_in_polygon, eff_shells, eff_holes, shell_rings, hole_rings,
        signed_area, cross, point_in_ring, point_in_ring_loop, edges, sq_cw,
        onEdgeB, straddleB, xinters, eps, min_def, max_def, abs_le,
        List.range_succ, List.filter, List.find?, ward_sq]⟩,
    bbox_filter_sound 5 5 [ward_sq] ward_sq (by decide) (by decide)
      (by
        norm_num [point_in_polygon, eff_shells, eff_holes, shell_rings, hole_rings,
          signed_area, cross, point_in_ring, point_in_ring_loop, edges, sq_cw,
          onEdgeB, straddleB, xinters, eps, min_def, max_def, abs_le,
          List.range_succ, List.filter, List.find?, ward_sq])⟩

/-- C7: the projection clamps the latitude into the Mercator range (acting as
the identity inside it) and then applies the spherical Web-Mercator formulas
with radius 6378137.0; it is a pure total function of its two arguments. -/
theorem lonlat_to_webmercator_spec (lon lat : ℝ) :
    lonlat_to_webmercator lon lat =
      (6378137.0 * radians lon,
        6378137.0 * Real.log (Real.tan (Real.pi / 4 + radians (clamp_lat lat) / 2))) ∧
    -85.05112878 ≤ clamp_lat lat ∧ clamp_lat lat ≤ 85.05112878 ∧
    (lat < -85.05112878 → clamp_lat lat = -85.05112878) ∧
    (85.05112878 < lat → clamp_lat lat = 85.05112878) ∧
    (-85.05112878 ≤ lat → lat ≤ 85.05112878 → clamp_lat lat = lat) := by
  refine ⟨rfl, le_max_right _ _,
    max_le (min_le_right _ _) (by norm_num), ?_, ?_, ?_⟩
  · intro h
    rw [clamp_lat, min_eq_left (le_of_lt (lt_of_lt_of_le h (by norm_num))),
      max_eq_right (le_of_lt h)]
  · intro h
    rw [clamp_lat, min_eq_right (le_of_lt h), max_eq_left (by norm_num)]
  · intro h1 h2
    rw [clamp_lat, min_eq_left h2, max_eq_left h1]

/-- Witness for C7 at longitude 0 and the out-of-range latitude 90. -/
theorem lonlat_to_webmercator_spec_witness :
    lonlat_to_webmercator 0 90 =
      (6378137.0 * radians 0,
        6378137.0 * Real.log (Real.tan (Real.pi / 4 + radians (clamp_lat 90) / 2))) ∧
    -85.05112878 ≤ clamp_lat (90 : ℝ) ∧ clamp_lat (90 : ℝ) ≤ 85.05112878 ∧
    ((90 : ℝ) < -85.05112878 → clamp_lat 90 = -85.05112878) ∧
    ((85.05112878 : ℝ) < 90 → clamp_lat 90 = 85.05112878) ∧
    ((-85.05112878 : ℝ) ≤ 90 → (90 : ℝ) ≤ 85.05112878 → clamp_lat 90 = 90) :=
  lonlat_to_webmercator_spec 0 90

/-- C8: `signed_area` is invariant under cyclic rotation of the starting
vertex and negates under reversal of the vertex order. -/
theorem signed_area_rotate_reverse (ring : List Pt) (k : ℕ) :
    signed_area (ring.rotate k) = signed_area ring ∧
      signed_area ring.reverse = -signed_area ring :=
  ⟨signed_area_rotate k ring, signed_area_reverse ring⟩

/-- C9: routing every division of the geometry core through a zero-checking
division changes nothing: the straddle guard forces a nonzero `y2 - y1` in
`point_in_ring`, and `dist_point_segment` divides only when `denom` is
nonzero, so both functions are total. -/
theorem geometry_division_safe (x y px py x1 y1 x2 y2 : ℚ) (ring : List Pt) :
    point_in_ring_checked x y ring = some (point_in_ring x y ring) ∧
      dist_point_segment_sq_checked px py x1 y1 x2 y2 =
        some (dist_point_segment_sq px py x1 y1 x2 y2) :=
  ⟨point_in_ring_checked_eq x y ring,
    dist_point_segment_sq_checked_eq px py x1 y1 x2 y2⟩

/-- C10: on the empty ward collection `lookup` returns `None` for every query
point and either fallback flag. -/
theorem lookup_empty_collection (x y : ℚ) (b : Bool) :
    lookup [] x y b = none := by
  cases b <;> rfl

end WardLookup
